import Mathlib

/-!
Shallow embedding of `src/engines/algebra/murnaghan_nakayama.py` and the
hook-length functions of `src/engines/algebra/representation_analyzer.py`.

Partitions and cycle types are tuples of non-negative integers in the source
(all claimed inputs are non-negative); they are modelled as `List Nat`.
Character values are arbitrary-precision signed integers, modelled as `Int`.
Python's floor division `//` on possibly-negative integers is `Int.fdiv`.
-/

/-- `list_to_partition` from the source: remove trailing zeros. -/
def list_to_partition (l : List Nat) : List Nat :=
  (l.reverse.dropWhile (fun x => x == 0)).reverse

/-- Adjacent non-increase check: the source's
`for i in range(len(p)-1): if p[i] < p[i+1]: return False` loop. -/
def nonIncr : List Nat → Bool
  | [] => true
  | [_] => true
  | a :: b :: t => decide (b ≤ a) && nonIncr (b :: t)

/-- `is_valid_partition` from the source: non-increasing and all parts positive
(the empty list is valid). -/
def is_valid_partition (p : List Nat) : Bool :=
  nonIncr p && p.all (fun x => decide (0 < x))

/-- The `available` count of one iteration of the strip loop: how many cells
the source considers removable from row `er` (full row length on the start
row, exposed-rim count below; Python's `available <= 0` break coincides with
`available = 0` here because truncated `Nat` subtraction sends the negative
Python values to `0`). -/
def availCells (sr er : Nat) (p : List Nat) : Nat :=
  if er = sr then p.getD er 0
  else if er + 1 < p.length then p.getD er 0 - p.getD (er + 1) 0
  else p.getD er 0

/-- The `diff` connectivity quantity of the strip loop:
`(p[end_row] - 1) - p[end_row + 1]` over the integers. -/
def connDiff (er : Nat) (p : List Nat) : Int :=
  (p.getD er 0 : Int) - 1 - (p.getD (er + 1) 0 : Int)

/-- The `while removed < k and end_row >= 0` loop of `remove_border_strip`.
State is `(p, removed, height)`; `er` is the current `end_row` (the Python
loop leaves the loop when `end_row` would become `-1`, which is the `er = 0`
case of the decrement below).  The source computes `to_remove` before the
connectivity check; `to_remove` is pure, so evaluating it after the check is
equivalent. -/
def borderLoop (k sr : Nat) : Nat → List Nat → Nat → Nat →
    List Nat × Nat × Nat
  | er, p, removed, height =>
    if k ≤ removed then (p, removed, height)
    else if availCells sr er p = 0 then (p, removed, height)
    else if 0 < removed ∧ (connDiff er p < 0 ∨ 1 < connDiff er p) then
      (p, removed, height)
    else if removed + min (availCells sr er p) (k - removed) < k then
      match er with
      | 0 => (p.set er (p.getD er 0 - min (availCells sr er p) (k - removed)),
          removed + min (availCells sr er p) (k - removed), height)
      | er2 + 1 =>
        borderLoop k sr er2
          (p.set er (p.getD er 0 - min (availCells sr er p) (k - removed)))
          (removed + min (availCells sr er p) (k - removed)) (height + 1)
    else (p.set er (p.getD er 0 - min (availCells sr er p) (k - removed)),
        removed + min (availCells sr er p) (k - removed), height)

/-- One iteration of the `for start_row in range(n_rows)` loop of
`remove_border_strip`: run the strip walk from `sr` and keep the result when
exactly `k` cells were removed and the leftover shape is a partition. -/
def strip_candidate (partition : List Nat) (k : Nat) (sr : Nat) :
    Option (List Nat × Nat) :=
  let r := borderLoop k sr sr partition 0 1
  if r.2.1 = k then
    let new_p := list_to_partition r.1
    if is_valid_partition new_p then some (new_p, r.2.2) else none
  else none

/-- The `unique` dictionary at the end of `remove_border_strip`: keep the
first `(partition, height)` pair for each distinct resulting partition,
in insertion order. -/
def dedupPairs (l : List (List Nat × Nat)) : List (List Nat × Nat) :=
  l.foldl (fun acc pr => if acc.any (fun q => q.1 == pr.1) then acc
                         else acc ++ [pr]) []

/-- `remove_border_strip` from the source. -/
def remove_border_strip (partition : List Nat) (k : Nat) :
    List (List Nat × Nat) :=
  if partition.isEmpty || k == 0 then []
  else dedupPairs ((List.range partition.length).filterMap
    (strip_candidate partition k))

/-- Insert `x` into a descending list, before the first element `≤ x`. -/
def insertDesc (x : Nat) : List Nat → List Nat
  | [] => [x]
  | y :: t => if y ≤ x then x :: y :: t else y :: insertDesc x t

/-- `sorted(cycle_type, reverse=True)` from the source. -/
def sortDesc (l : List Nat) : List Nat := l.foldr insertDesc []

/-- `character_mn` with explicit fuel.  The Python recursion terminates
because each recursive call drops one entry of the cycle type; calling with
`fuel = cycle_type.length` therefore reproduces it exactly: whenever the
`fuel = 0` branch could be reached the cycle type is empty and one of the
earlier branches has already returned. -/
def charFuel (fuel : Nat) (partition cycle_type : List Nat) : Int :=
  let ct := sortDesc cycle_type
  if partition.isEmpty && ct.isEmpty then 1
  else if partition.isEmpty || ct.isEmpty then 0
  else if partition.sum ≠ ct.sum then 0
  else match fuel with
    | 0 => 0
    | fuel2 + 1 =>
      let k := ct.headD 0
      let rem := ct.tail
      let removals := remove_border_strip partition k
      if removals.isEmpty then 0
      else (removals.map
        (fun q => (-1 : Int) ^ (q.2 - 1) * charFuel fuel2 q.1 rem)).sum

/-- `character_mn` from the source (the `lru_cache` is a pure memoisation of
a deterministic function and does not change values). -/
def character_mn (partition cycle_type : List Nat) : Int :=
  charFuel cycle_type.length partition cycle_type

/-- Distinct values of a list in first-occurrence order: the iteration order
of the `collections.Counter` in `conjugacy_class_size`. -/
def firstDedup (l : List Nat) : List Nat :=
  l.foldl (fun acc x => if x ∈ acc then acc else acc ++ [x]) []

/-- `z = prod(part ** mult * factorial(mult))` over the `Counter` of the
cycle type. -/
def zPart (c : List Nat) : Nat :=
  (firstDedup c).foldl
    (fun acc part => acc * (part ^ c.count part * Nat.factorial (c.count part))) 1

/-- `conjugacy_class_size` from the source: `factorial(n) // z`. -/
def conjugacy_class_size (cycle_type : List Nat) (n : Nat) : Nat :=
  Nat.factorial n / zPart cycle_type

/-- `[m, m-1, ..., 1]`: the iteration order of
`range(min(remaining, max_part), 0, -1)`. -/
def descRange : Nat → List Nat
  | 0 => []
  | m + 1 => (m + 1) :: descRange m

theorem mem_descRange {x m : Nat} : x ∈ descRange m ↔ 1 ≤ x ∧ x ≤ m := by
  induction m with
  | zero => simp only [descRange, List.not_mem_nil, false_iff]; omega
  | succ m ih =>
    simp only [descRange, List.mem_cons, ih]
    omega

/-- The inner `generate` of the source's `partitions`, with explicit fuel so
that the recursion is structural.  Every part produced by `descRange` is at
least 1, so each Python call strictly decreases `remaining`; with
`fuel = remaining` at the top call the invariant `remaining ≤ fuel` holds in
every reachable call and the `fuel = 0` fallback is only reached with
`remaining = 0`, where it agrees with the source. -/
def genParts (fuel remaining maxPart : Nat) (current : List Nat) :
    List (List Nat) :=
  match fuel with
  | 0 => if remaining = 0 then [current] else []
  | f + 1 =>
    if remaining = 0 then [current]
    else (descRange (min remaining maxPart)).flatMap
      (fun part => genParts f (remaining - part) part (current ++ [part]))

/-- `partitions` from the source: all partitions of `n`, largest part first,
parts in non-increasing order inside each partition. -/
def partitions (n : Nat) : List (List Nat) := genParts n n n []

/-- The accumulated pre-division total of `kronecker_coefficient_exact`:
`sum over rho of class_size * chi_lam * chi_mu * chi_nu`. -/
def kroneckerTotal (lam mu nu : List Nat) : Int :=
  ((partitions lam.sum).map (fun rho =>
    (conjugacy_class_size rho lam.sum : Int) * character_mn lam rho *
      character_mn mu rho * character_mn nu rho)).sum

/-- `kronecker_coefficient_exact` from the source; Python's `total // n!`
is floor division, i.e. `Int.fdiv`. -/
def kronecker_coefficient_exact (lam mu nu : List Nat) : Int :=
  if mu.sum ≠ lam.sum ∨ nu.sum ≠ lam.sum then 0
  else (kroneckerTotal lam mu nu).fdiv (Nat.factorial lam.sum)

/-- `hook_length` from `representation_analyzer.py`: product of
`arm + leg + 1` over all cells of the diagram. -/
def hook_length (p : List Nat) : Nat :=
  if p.isEmpty then 1
  else ((List.range p.length).map (fun i =>
    ((List.range (p.getD i 0)).map (fun j =>
      (p.getD i 0 - j - 1) +
        ((p.drop (i + 1)).countP (fun v => decide (j < v))) + 1)).prod)).prod

/-- `specht_dimension` from `representation_analyzer.py`:
`factorial(n) // hook_length(p)`. -/
def specht_dimension (p : List Nat) : Nat :=
  if p.isEmpty then 1 else Nat.factorial p.sum / hook_length p

/-! ## Claim C1: S_4 character table regression -/

/-- C1: the code's actual values on the six claimed S_4 regression inputs.
The spec claims `character((2,2),(2,2)) = 2`, `character((2,2),(4,)) = 0`
and `character((3,1),(4,)) = -1`; the code instead returns `1`, `-1` and `0`
on those three inputs (the other three match the claim). -/
theorem C1_s4_regression_code_values :
    character_mn [4] [1, 1, 1, 1] = 1 ∧
    character_mn [2, 2] [1, 1, 1, 1] = 2 ∧
    character_mn [2, 2] [2, 2] = 1 ∧
    character_mn [2, 2] [4] = -1 ∧
    character_mn [3, 1] [4] = 0 ∧
    character_mn [1, 1, 1, 1] [4] = -1 := by decide

/-! ## Claim C2: border-strip edge case (2,2) with k = 4 -/

/-- C2: `remove_border_strip((2,2), 4)` does not return an empty list: the
code removes the whole `(2,2)` shape (a 2x2 square, forbidden for border
strips) as a single strip of height 2. -/
theorem C2_strip_from_2x2_square :
    remove_border_strip [2, 2] 4 = [([], 2)] := by decide

/-! ## Claim C3: exact division, never silently truncated -/

/-- C3: for the valid triple ((2,1),(2,1),(2,1)) of partitions of 3 the
pre-division accumulated sum is 3, which is not divisible by 3! = 6, and the
code silently floor-divides it to 0 instead of raising any error. -/
theorem C3_nonzero_remainder_truncated :
    kroneckerTotal [2, 1] [2, 1] [2, 1] = 3 ∧
    kroneckerTotal [2, 1] [2, 1] [2, 1] % (Nat.factorial 3 : Int) ≠ 0 ∧
    kronecker_coefficient_exact [2, 1] [2, 1] [2, 1] = 0 := by decide

/-! ## Claim C4: standard-representation scenario -/

/-- C4: the code returns 0, not the claimed 1, for
`kronecker_coefficient_exact((2,1),(2,1),(2,1))`. -/
theorem C4_standard_rep_kronecker_code_value :
    kronecker_coefficient_exact [2, 1] [2, 1] [2, 1] = 0 := by decide

/-! ## Claim C8: non-negativity of Kronecker coefficients -/

/-- C8: the code returns a negative value on the valid equal-size triple
((2,1),(1,1,1),(1,1,1)): the accumulated total is -3 and Python floor
division by 6 yields -1. -/
theorem C8_negative_kronecker_output :
    kronecker_coefficient_exact [2, 1] [1, 1, 1] [1, 1, 1] = -1 := by decide

/-! ## Claim C9: eager validation at the API boundary -/

/-- C9 counterexample: the sequence (1,2) is not a valid partition, yet
`character_mn` raises nothing and lets it flow into the recursive core,
which removes border strips from it and returns the ordinary value 1. -/
theorem C9_invalid_input_not_rejected :
    is_valid_partition [1, 2] = false ∧ character_mn [1, 2] [1, 2] = 1 := by
  decide

/-- C9 amended: the public operations perform no input validation at all;
non-partition inputs are processed by the recursive core and produce
ordinary integer results (1 and 0 here), and the border-strip enumerator
even returns removals for the invalid shape. -/
theorem C9_no_validation_anywhere :
    is_valid_partition [1, 2] = false ∧
    character_mn [1, 2] [1, 2] = 1 ∧
    kronecker_coefficient_exact [1, 2] [1, 2] [1, 2] = 0 ∧
    remove_border_strip [1, 2] 2 = [([1], 1)] := by decide

/-! ## Enumeration lemmas for `partitions` -/

theorem nonIncr_tail {a : Nat} {t : List Nat} (h : nonIncr (a :: t) = true) :
    nonIncr t = true := by
  cases t with
  | nil => rfl
  | cons b t2 =>
    simp only [nonIncr, Bool.and_eq_true] at h
    exact h.2

theorem nonIncr_cons_le {a : Nat} {t : List Nat} (h : nonIncr (a :: t) = true) :
    ∀ x ∈ t, x ≤ a := by
  induction t generalizing a with
  | nil => intro x hx; cases hx
  | cons b t2 ih =>
    simp only [nonIncr, Bool.and_eq_true, decide_eq_true_eq] at h
    intro x hx
    rcases List.mem_cons.mp hx with rfl | hx2
    · exact h.1
    · exact le_trans (ih (by simpa [nonIncr] using h.2) x hx2) h.1

theorem genParts_complete : ∀ (p : List Nat) (fuel r m : Nat) (c : List Nat),
    r ≤ fuel → p.sum = r → nonIncr p = true → (∀ x ∈ p, 1 ≤ x) →
    (∀ x ∈ p, x ≤ m) → c ++ p ∈ genParts fuel r m c := by
  intro p
  induction p with
  | nil =>
    intro fuel r m c _ hs _ _ _
    have hr : r = 0 := by simpa using hs.symm
    subst hr
    cases fuel <;> simp [genParts]
  | cons a t ih =>
    intro fuel r m c hf hs hni hpos hle
    have ha1 : 1 ≤ a := hpos a (List.mem_cons_self a t)
    have har : a + t.sum = r := by simpa using hs
    cases fuel with
    | zero => omega
    | succ f =>
      have hrne : r ≠ 0 := by omega
      simp only [genParts, hrne, if_false, List.mem_flatMap]
      refine ⟨a, mem_descRange.mpr ⟨ha1, le_min (by omega) (hle a (List.mem_cons_self a t))⟩, ?_⟩
      have := ih f (r - a) a (c ++ [a]) (by omega) (by omega)
        (nonIncr_tail hni) (fun x hx => hpos x (List.mem_cons_of_mem a hx))
        (nonIncr_cons_le hni)
      simpa using this

theorem partitions_complete {p : List Nat} (hv : is_valid_partition p = true) :
    p ∈ partitions p.sum := by
  simp only [is_valid_partition, Bool.and_eq_true, List.all_eq_true,
    decide_eq_true_eq] at hv
  have := genParts_complete p p.sum p.sum p.sum [] le_rfl rfl hv.1
    (fun x hx => hv.2 x hx)
    (fun x hx => List.single_le_sum (fun y _ => Nat.zero_le y) x hx)
  simpa using this

/-! ## Claim C5: identity-character law for n up to 7 -/

set_option maxHeartbeats 4000000 in
/-- C5: for every valid partition lam of n with n at most 7, the
Murnaghan-Nakayama evaluator at the identity cycle type (n ones) agrees with
the hook-length dimension of the Specht module. -/
theorem C5_identity_character_law :
    ∀ lam : List Nat, is_valid_partition lam = true → lam.sum ≤ 7 →
      character_mn lam (List.replicate lam.sum 1) =
        (specht_dimension lam : Int) := by
  have hall : ((List.range 8).all (fun n => (partitions n).all
      (fun q => character_mn q (List.replicate n 1) ==
        (specht_dimension q : Int)))) = true := by decide
  intro lam hv hs
  have hmem := partitions_complete hv
  have h1 := List.all_eq_true.mp hall lam.sum (List.mem_range.mpr (by omega))
  have h2 := List.all_eq_true.mp h1 lam hmem
  exact eq_of_beq h2

/-- C5 witness: the law instantiated at the concrete partition (4,2,1) of 7,
whose Specht dimension is 35. -/
theorem C5_identity_character_law_witness :
    is_valid_partition [4, 2, 1] = true ∧ ([4, 2, 1] : List Nat).sum ≤ 7 ∧
      character_mn [4, 2, 1] (List.replicate ([4, 2, 1] : List Nat).sum 1) =
        (specht_dimension [4, 2, 1] : Int) :=
  ⟨by decide, by decide, C5_identity_character_law [4, 2, 1] (by decide) (by decide)⟩

/-! ## Claim C7: symmetry of the Kronecker computation -/

theorem kroneckerTotal_swap23 (lam mu nu : List Nat) :
    kroneckerTotal lam mu nu = kroneckerTotal lam nu mu := by
  unfold kroneckerTotal
  congr 1
  have : (fun rho => (conjugacy_class_size rho lam.sum : Int) *
      character_mn lam rho * character_mn mu rho * character_mn nu rho) =
      (fun rho => (conjugacy_class_size rho lam.sum : Int) *
      character_mn lam rho * character_mn nu rho * character_mn mu rho) := by
    funext rho
    ring
  rw [this]

theorem kroneckerTotal_swap12 (lam mu nu : List Nat) (h : mu.sum = lam.sum) :
    kroneckerTotal lam mu nu = kroneckerTotal mu lam nu := by
  unfold kroneckerTotal
  rw [h]
  congr 1
  have : (fun rho => (conjugacy_class_size rho lam.sum : Int) *
      character_mn lam rho * character_mn mu rho * character_mn nu rho) =
      (fun rho => (conjugacy_class_size rho lam.sum : Int) *
      character_mn mu rho * character_mn lam rho * character_mn nu rho) := by
    funext rho
    ring
  rw [this]

theorem kron_swap23 (lam mu nu : List Nat) :
    kronecker_coefficient_exact lam mu nu =
      kronecker_coefficient_exact lam nu mu := by
  unfold kronecker_coefficient_exact
  rw [kroneckerTotal_swap23]
  by_cases h1 : mu.sum = lam.sum <;> by_cases h2 : nu.sum = lam.sum <;>
    simp [h1, h2]

theorem kron_swap12 (lam mu nu : List Nat) (h : mu.sum = lam.sum) :
    kronecker_coefficient_exact lam mu nu =
      kronecker_coefficient_exact mu lam nu := by
  unfold kronecker_coefficient_exact
  rw [kroneckerTotal_swap12 lam mu nu h, h]

/-- C7: on any triple of valid partitions of the same n the Kronecker
computation returns the same integer under all 6 permutations of its three
arguments (the accumulated sum is a product, hence commutative, and the size
guard is symmetric). -/
theorem C7_kronecker_symmetry :
    ∀ lam mu nu : List Nat, is_valid_partition lam = true →
      is_valid_partition mu = true → is_valid_partition nu = true →
      lam.sum = mu.sum → mu.sum = nu.sum →
      (kronecker_coefficient_exact lam mu nu =
          kronecker_coefficient_exact lam nu mu ∧
        kronecker_coefficient_exact lam mu nu =
          kronecker_coefficient_exact mu lam nu ∧
        kronecker_coefficient_exact lam mu nu =
          kronecker_coefficient_exact mu nu lam ∧
        kronecker_coefficient_exact lam mu nu =
          kronecker_coefficient_exact nu lam mu ∧
        kronecker_coefficient_exact lam mu nu =
          kronecker_coefficient_exact nu mu lam) := by
  intro lam mu nu _ _ _ h12 h23
  have e23 := kron_swap23 lam mu nu
  have e12 := kron_swap12 lam mu nu h12.symm
  have e2 := kron_swap23 mu lam nu
  have e3 := kron_swap12 lam nu mu (h12.trans h23).symm
  have e4 := kron_swap23 nu lam mu
  exact ⟨e23, e12, e12.trans e2, e23.trans e3, e23.trans (e3.trans e4)⟩

/-- C7 witness: the symmetry law at the concrete triple
((2,1),(1,1,1),(3)) of partitions of 3. -/
theorem C7_kronecker_symmetry_witness :
    is_valid_partition [2, 1] = true ∧
      ([2, 1] : List Nat).sum = ([1, 1, 1] : List Nat).sum ∧
      (kronecker_coefficient_exact [2, 1] [1, 1, 1] [3] =
          kronecker_coefficient_exact [2, 1] [3] [1, 1, 1] ∧
        kronecker_coefficient_exact [2, 1] [1, 1, 1] [3] =
          kronecker_coefficient_exact [1, 1, 1] [2, 1] [3] ∧
        kronecker_coefficient_exact [2, 1] [1, 1, 1] [3] =
          kronecker_coefficient_exact [1, 1, 1] [3] [2, 1] ∧
        kronecker_coefficient_exact [2, 1] [1, 1, 1] [3] =
          kronecker_coefficient_exact [3] [2, 1] [1, 1, 1] ∧
        kronecker_coefficient_exact [2, 1] [1, 1, 1] [3] =
          kronecker_coefficient_exact [3] [1, 1, 1] [2, 1]) :=
  ⟨by decide, by decide,
    C7_kronecker_symmetry [2, 1] [1, 1, 1] [3] (by decide) (by decide)
      (by decide) (by decide) (by decide)⟩

/-! ## Claim C10: invariants of remove_border_strip -/

theorem availCells_le (sr er : Nat) (p : List Nat) :
    availCells sr er p ≤ p.getD er 0 := by
  unfold availCells
  split
  · exact le_refl _
  · split
    · omega
    · exact le_refl _

theorem availCells_ne_zero_lt {sr er : Nat} {p : List Nat}
    (h : availCells sr er p ≠ 0) : er < p.length := by
  by_contra hc
  have hp0 : p.getD er 0 = 0 := List.getD_eq_default _ _ (by omega)
  apply h
  unfold availCells
  split
  · exact hp0
  · split
    · omega
    · exact hp0

theorem sum_set_sub : ∀ (p : List Nat) (i t : Nat), i < p.length →
    t ≤ p.getD i 0 → (p.set i (p.getD i 0 - t)).sum + t = p.sum := by
  intro p
  induction p with
  | nil => intro i t h; simp at h
  | cons a tl ih =>
    intro i t hi ht
    cases i with
    | zero =>
      simp only [List.getD_cons_zero] at ht
      simp only [List.set, List.getD_cons_zero, List.sum_cons]
      omega
    | succ j =>
      simp only [List.getD_cons_succ] at ht
      simp only [List.set, List.sum_cons, List.getD_cons_succ]
      have := ih j t (by simpa using hi) ht
      omega

theorem borderLoop_spec (k sr : Nat) :
    ∀ (er : Nat) (p : List Nat) (removed height : Nat), removed ≤ k →
      ((borderLoop k sr er p removed height).1.sum +
          (borderLoop k sr er p removed height).2.1 = p.sum + removed ∧
        (borderLoop k sr er p removed height).2.1 ≤ k ∧
        height ≤ (borderLoop k sr er p removed height).2.2 ∧
        (borderLoop k sr er p removed height).2.2 ≤ height + er) := by
  intro er
  induction er with
  | zero =>
    intro p removed height hrk
    rw [borderLoop]
    by_cases h1 : k ≤ removed
    · rw [if_pos h1]; dsimp only [Nat.succ_eq_add_one]; exact ⟨rfl, hrk, le_refl _, by omega⟩
    · rw [if_neg h1]
      by_cases h2 : availCells sr 0 p = 0
      · rw [if_pos h2]; dsimp only [Nat.succ_eq_add_one]; exact ⟨rfl, hrk, le_refl _, by omega⟩
      · rw [if_neg h2]
        by_cases h3 : 0 < removed ∧ (connDiff 0 p < 0 ∨ 1 < connDiff 0 p)
        · rw [if_pos h3]; dsimp only [Nat.succ_eq_add_one]; exact ⟨rfl, hrk, le_refl _, by omega⟩
        · rw [if_neg h3]
          have hlen : 0 < p.length := availCells_ne_zero_lt h2
          have hub : min (availCells sr 0 p) (k - removed) ≤ p.getD 0 0 :=
            le_trans (Nat.min_le_left _ _) (availCells_le sr 0 p)
          have hsum := sum_set_sub p 0 (min (availCells sr 0 p) (k - removed))
            hlen hub
          have hmr := Nat.min_le_right (availCells sr 0 p) (k - removed)
          by_cases h4 : removed + min (availCells sr 0 p) (k - removed) < k
          · rw [if_pos h4]
            dsimp only [Nat.succ_eq_add_one]
            exact ⟨by omega, by omega, le_refl _, by omega⟩
          · rw [if_neg h4]
            dsimp only [Nat.succ_eq_add_one]
            exact ⟨by omega, by omega, le_refl _, by omega⟩
  | succ er2 ih =>
    intro p removed height hrk
    rw [borderLoop]
    by_cases h1 : k ≤ removed
    · rw [if_pos h1]; dsimp only [Nat.succ_eq_add_one]; exact ⟨rfl, hrk, le_refl _, by omega⟩
    · rw [if_neg h1]
      by_cases h2 : availCells sr (er2 + 1) p = 0
      · rw [if_pos h2]; dsimp only [Nat.succ_eq_add_one]; exact ⟨rfl, hrk, le_refl _, by omega⟩
      · rw [if_neg h2]
        by_cases h3 : 0 < removed ∧
            (connDiff (er2 + 1) p < 0 ∨ 1 < connDiff (er2 + 1) p)
        · rw [if_pos h3]; dsimp only [Nat.succ_eq_add_one]; exact ⟨rfl, hrk, le_refl _, by omega⟩
        · rw [if_neg h3]
          have hlen : er2 + 1 < p.length := availCells_ne_zero_lt h2
          have hub : min (availCells sr (er2 + 1) p) (k - removed) ≤
              p.getD (er2 + 1) 0 :=
            le_trans (Nat.min_le_left _ _) (availCells_le sr (er2 + 1) p)
          have hsum := sum_set_sub p (er2 + 1)
            (min (availCells sr (er2 + 1) p) (k - removed)) hlen hub
          have hmr := Nat.min_le_right (availCells sr (er2 + 1) p) (k - removed)
          by_cases h4 : removed + min (availCells sr (er2 + 1) p) (k - removed) < k
          · rw [if_pos h4]
            dsimp only [Nat.succ_eq_add_one]
            have hrec := ih
              (p.set (er2 + 1) (p.getD (er2 + 1) 0 -
                min (availCells sr (er2 + 1) p) (k - removed)))
              (removed + min (availCells sr (er2 + 1) p) (k - removed))
              (height + 1) (by omega)
            exact ⟨by omega, by omega, by omega, by omega⟩
          · rw [if_neg h4]
            dsimp only [Nat.succ_eq_add_one]
            exact ⟨by omega, by omega, le_refl _, by omega⟩

theorem sum_dropWhile_zero : ∀ l : List Nat,
    (l.dropWhile (fun x => x == 0)).sum = l.sum := by
  intro l
  induction l with
  | nil => rfl
  | cons a t ih =>
    by_cases ha : a = 0
    · subst ha; simpa [List.dropWhile] using ih
    · have hb : (a == 0) = false := beq_eq_false_iff_ne.mpr ha
      simp [List.dropWhile, hb]

theorem list_to_partition_sum (l : List Nat) :
    (list_to_partition l).sum = l.sum := by
  unfold list_to_partition
  rw [List.sum_reverse, sum_dropWhile_zero, List.sum_reverse]

theorem strip_candidate_spec {lam : List Nat} {k sr : Nat}
    {q : List Nat × Nat} (hsr : sr < lam.length)
    (h : strip_candidate lam k sr = some q) :
    is_valid_partition q.1 = true ∧ q.1.sum + k = lam.sum ∧
      1 ≤ q.2 ∧ q.2 ≤ lam.length := by
  simp only [strip_candidate] at h
  split_ifs at h with h1 h2
  · have hspec := borderLoop_spec k sr sr lam 0 1 (Nat.zero_le k)
    injection h with h3
    subst h3
    refine ⟨h2, ?_, ?_, ?_⟩
    · dsimp only
      rw [list_to_partition_sum]
      omega
    · exact hspec.2.2.1
    · have := hspec.2.2.2
      dsimp only
      omega

theorem dedupPairs_aux_mem : ∀ (l acc : List (List Nat × Nat))
    (q : List Nat × Nat),
    q ∈ l.foldl (fun acc2 pr => if acc2.any (fun q2 => q2.1 == pr.1) then acc2
      else acc2 ++ [pr]) acc → q ∈ acc ∨ q ∈ l := by
  intro l
  induction l with
  | nil => intro acc q h; exact Or.inl h
  | cons a t ih =>
    intro acc q h
    simp only [List.foldl_cons] at h
    rcases ih _ q h with hacc | ht
    · by_cases hc : (acc.any (fun q2 => q2.1 == a.1)) = true
      · rw [if_pos hc] at hacc
        exact Or.inl hacc
      · rw [if_neg hc] at hacc
        rcases List.mem_append.mp hacc with h2 | h2
        · exact Or.inl h2
        · right
          simp only [List.mem_singleton] at h2
          subst h2
          exact List.mem_cons_self _ _
    · exact Or.inr (List.mem_cons_of_mem _ ht)

theorem dedupPairs_mem {l : List (List Nat × Nat)} {q : List Nat × Nat}
    (h : q ∈ dedupPairs l) : q ∈ l := by
  rcases dedupPairs_aux_mem l [] q h with h0 | h1
  · cases h0
  · exact h1

theorem dedupPairs_aux_pairwise : ∀ (l acc : List (List Nat × Nat)),
    acc.Pairwise (fun a b => a.1 ≠ b.1) →
    (l.foldl (fun acc2 pr => if acc2.any (fun q2 => q2.1 == pr.1) then acc2
      else acc2 ++ [pr]) acc).Pairwise (fun a b => a.1 ≠ b.1) := by
  intro l
  induction l with
  | nil => intro acc h; exact h
  | cons a t ih =>
    intro acc h
    simp only [List.foldl_cons]
    apply ih
    by_cases hc : (acc.any (fun q2 => q2.1 == a.1)) = true
    · rw [if_pos hc]; exact h
    · rw [if_neg hc]
      rw [List.pairwise_append]
      refine ⟨h, List.pairwise_singleton _ _, ?_⟩
      intro x hx y hy
      simp only [List.mem_singleton] at hy
      subst hy
      have hc2 : ∀ q2 ∈ acc, (q2.1 == y.1) ≠ true := by
        intro q2 hq2 hbeq
        exact hc (List.any_eq_true.mpr ⟨q2, hq2, hbeq⟩)
      exact fun hxy => hc2 x hx (beq_iff_eq.mpr hxy)

theorem dedupPairs_pairwise (l : List (List Nat × Nat)) :
    (dedupPairs l).Pairwise (fun a b => a.1 ≠ b.1) :=
  dedupPairs_aux_pairwise l [] List.Pairwise.nil

theorem dedupPairs_aux_length : ∀ (l acc : List (List Nat × Nat)),
    (l.foldl (fun acc2 pr => if acc2.any (fun q2 => q2.1 == pr.1) then acc2
      else acc2 ++ [pr]) acc).length ≤ acc.length + l.length := by
  intro l
  induction l with
  | nil => intro acc; simp
  | cons a t ih =>
    intro acc
    simp only [List.foldl_cons, List.length_cons]
    refine le_trans (ih _) ?_
    by_cases hc : (acc.any (fun q2 => q2.1 == a.1)) = true
    · rw [if_pos hc]; omega
    · rw [if_neg hc]; simp; omega

theorem dedupPairs_length (l : List (List Nat × Nat)) :
    (dedupPairs l).length ≤ l.length := by
  simpa using dedupPairs_aux_length l []

theorem C10_border_strip_invariants :
    ∀ (lam : List Nat) (k : Nat), is_valid_partition lam = true → 1 ≤ k →
      ((∀ q ∈ remove_border_strip lam k,
          is_valid_partition q.1 = true ∧ q.1.sum + k = lam.sum ∧
            1 ≤ q.2 ∧ q.2 ≤ lam.length) ∧
        (remove_border_strip lam k).Pairwise (fun a b => a.1 ≠ b.1) ∧
        (remove_border_strip lam k).length ≤ lam.length) := by
  intro lam k _ _
  unfold remove_border_strip
  by_cases hemp : (lam.isEmpty || k == 0) = true
  · rw [if_pos hemp]
    exact ⟨fun q hq => absurd hq (List.not_mem_nil q), List.Pairwise.nil,
      Nat.zero_le _⟩
  · rw [if_neg hemp]
    refine ⟨?_, dedupPairs_pairwise _, ?_⟩
    · intro q hq
      have hq2 := dedupPairs_mem hq
      rcases List.mem_filterMap.mp hq2 with ⟨sr, hsr, hsome⟩
      exact strip_candidate_spec (List.mem_range.mp hsr) hsome
    · refine le_trans (dedupPairs_length _) ?_
      refine le_trans (List.length_filterMap_le _ _) ?_
      simp

theorem C10_border_strip_invariants_witness :
    is_valid_partition [2, 1] = true ∧ 1 ≤ 1 ∧
      ((∀ q ∈ remove_border_strip [2, 1] 1,
          is_valid_partition q.1 = true ∧
            q.1.sum + 1 = ([2, 1] : List Nat).sum ∧
            1 ≤ q.2 ∧ q.2 ≤ ([2, 1] : List Nat).length) ∧
        (remove_border_strip [2, 1] 1).Pairwise (fun a b => a.1 ≠ b.1) ∧
        (remove_border_strip [2, 1] 1).length ≤ ([2, 1] : List Nat).length) :=
  ⟨by decide, by decide,
    C10_border_strip_invariants [2, 1] 1 (by decide) (by decide)⟩

/-! ## Soundness and distinctness of the partition enumerator -/

theorem nonIncr_cons {a : Nat} {t : List Nat} (hle : ∀ x ∈ t, x ≤ a)
    (ht : nonIncr t = true) : nonIncr (a :: t) = true := by
  cases t with
  | nil => rfl
  | cons b t2 =>
    simp only [nonIncr, Bool.and_eq_true, decide_eq_true_eq]
    exact ⟨hle b (List.mem_cons_self _ _), ht⟩

theorem genParts_sound : ∀ (fuel r m : Nat) (c rho : List Nat),
    rho ∈ genParts fuel r m c → ∃ t : List Nat, rho = c ++ t ∧ t.sum = r ∧
      (∀ x ∈ t, 1 ≤ x ∧ x ≤ m) ∧ nonIncr t = true := by
  intro fuel
  induction fuel with
  | zero =>
    intro r m c rho h
    simp only [genParts] at h
    by_cases hr : r = 0
    · rw [if_pos hr] at h
      simp only [List.mem_singleton] at h
      subst h
      exact ⟨[], by simp, by simp [hr], by simp, rfl⟩
    · rw [if_neg hr] at h
      cases h
  | succ f ih =>
    intro r m c rho h
    simp only [genParts] at h
    by_cases hr : r = 0
    · rw [if_pos hr] at h
      simp only [List.mem_singleton] at h
      subst h
      exact ⟨[], by simp, by simp [hr], by simp, rfl⟩
    · rw [if_neg hr] at h
      rcases List.mem_flatMap.mp h with ⟨part, hpart, hmem⟩
      rcases mem_descRange.mp hpart with ⟨hp1, hp2⟩
      rcases ih (r - part) part (c ++ [part]) rho hmem with
        ⟨t, hrho, hsum, hbound, hni⟩
      refine ⟨part :: t, by simpa using hrho, ?_, ?_, ?_⟩
      · simp only [List.sum_cons]
        omega
      · intro x hx
        rcases List.mem_cons.mp hx with rfl | hx2
        · exact ⟨hp1, by omega⟩
        · rcases hbound x hx2 with ⟨hb1, hb2⟩
          exact ⟨hb1, by omega⟩
      · exact nonIncr_cons (fun x hx => (hbound x hx).2) hni

theorem partitions_sound {n : Nat} {rho : List Nat}
    (h : rho ∈ partitions n) :
    rho.sum = n ∧ (∀ x ∈ rho, 1 ≤ x) ∧ nonIncr rho = true := by
  rcases genParts_sound n n n [] rho h with ⟨t, hrho, hsum, hbound, hni⟩
  simp only [List.nil_append] at hrho
  subst hrho
  exact ⟨hsum, fun x hx => (hbound x hx).1, hni⟩

theorem partitions_mem_iff {n : Nat} {rho : List Nat} :
    rho ∈ partitions n ↔
      rho.sum = n ∧ (∀ x ∈ rho, 1 ≤ x) ∧ nonIncr rho = true := by
  constructor
  · exact partitions_sound
  · rintro ⟨hsum, hpos, hni⟩
    subst hsum
    exact partitions_complete (by
      simp only [is_valid_partition, Bool.and_eq_true, List.all_eq_true,
        decide_eq_true_eq]
      exact ⟨hni, hpos⟩)

theorem descRange_nodup : ∀ m : Nat, (descRange m).Nodup := by
  intro m
  induction m with
  | zero => exact List.nodup_nil
  | succ m ih =>
    simp only [descRange, List.nodup_cons]
    refine ⟨fun hc => ?_, ih⟩
    have := mem_descRange.mp hc
    omega

theorem genParts_nodup : ∀ (fuel r m : Nat) (c : List Nat),
    (genParts fuel r m c).Nodup := by
  intro fuel
  induction fuel with
  | zero =>
    intro r m c
    simp only [genParts]
    split <;> simp
  | succ f ih =>
    intro r m c
    simp only [genParts]
    by_cases hr : r = 0
    · rw [if_pos hr]; simp
    · rw [if_neg hr]
      rw [List.nodup_flatMap]
      have hkey : ∀ part (rho : List Nat),
          rho ∈ genParts f (r - part) part (c ++ [part]) →
          rho.drop c.length = part :: rho.drop (c.length + 1) := by
        intro part rho hmem
        rcases genParts_sound f (r - part) part (c ++ [part]) rho hmem with
          ⟨t, hrho, -, -, -⟩
        subst hrho
        have h1 : ((c ++ [part]) ++ t).drop c.length = part :: t := by
          rw [List.append_assoc]
          simpa using List.drop_left c (part :: t)
        have h2 : ((c ++ [part]) ++ t).drop (c.length + 1) = t := by
          have hl : (c ++ [part]).length = c.length + 1 := by simp
          rw [← hl, List.drop_left]
        rw [h1, h2]
      constructor
      · intro part _
        exact ih _ _ _
      · apply (descRange_nodup (min r m)).pairwise_of_forall_ne
        intro a _ b _ hab
        simp only [Function.onFun]
        intro rho h1 h2
        have e1 := hkey a rho h1
        have e2 := hkey b rho h2
        rw [e1] at e2
        injection e2 with e3 _
        exact hab e3

theorem partitions_nodup (n : Nat) : (partitions n).Nodup :=
  genParts_nodup n n n []

/-! ## The cycle-index weight z and its removal recurrence -/

theorem firstDedup_aux_mem : ∀ (l acc : List Nat) (q : Nat),
    q ∈ l.foldl (fun acc2 x => if x ∈ acc2 then acc2 else acc2 ++ [x]) acc ↔
      q ∈ acc ∨ q ∈ l := by
  intro l
  induction l with
  | nil => intro acc q; simp
  | cons a t ih =>
    intro acc q
    simp only [List.foldl_cons]
    rw [ih]
    by_cases hc : a ∈ acc
    · rw [if_pos hc]
      constructor
      · rintro (h | h)
        · exact Or.inl h
        · exact Or.inr (List.mem_cons_of_mem _ h)
      · rintro (h | h)
        · exact Or.inl h
        · rcases List.mem_cons.mp h with rfl | h2
          · exact Or.inl hc
          · exact Or.inr h2
    · rw [if_neg hc]
      simp only [List.mem_append, List.mem_singleton, List.mem_cons]
      tauto

theorem mem_firstDedup {l : List Nat} {q : Nat} :
    q ∈ firstDedup l ↔ q ∈ l := by
  unfold firstDedup
  rw [firstDedup_aux_mem]
  simp

theorem firstDedup_aux_nodup : ∀ (l acc : List Nat), acc.Nodup →
    (l.foldl (fun acc2 x => if x ∈ acc2 then acc2 else acc2 ++ [x]) acc).Nodup := by
  intro l
  induction l with
  | nil => intro acc h; exact h
  | cons a t ih =>
    intro acc h
    simp only [List.foldl_cons]
    apply ih
    by_cases hc : a ∈ acc
    · rw [if_pos hc]; exact h
    · rw [if_neg hc]
      rw [List.nodup_append]
      exact ⟨h, List.nodup_singleton a, by simpa using hc⟩

theorem firstDedup_nodup (l : List Nat) : (firstDedup l).Nodup :=
  firstDedup_aux_nodup l [] List.nodup_nil

theorem firstDedup_toFinset (l : List Nat) :
    (firstDedup l).toFinset = l.toFinset := by
  apply Finset.ext
  intro a
  simp only [List.mem_toFinset]
  exact mem_firstDedup

theorem zPart_eq_prod (c : List Nat) :
    zPart c = ∏ a ∈ c.toFinset,
      a ^ c.count a * Nat.factorial (c.count a) := by
  unfold zPart
  have h1 : (firstDedup c).foldl
      (fun acc part => acc * (part ^ c.count part *
        Nat.factorial (c.count part))) 1 =
      ((firstDedup c).map (fun part => part ^ c.count part *
        Nat.factorial (c.count part))).prod := by
    rw [List.prod_eq_foldl, List.foldl_map]
  rw [h1, ← List.prod_toFinset _ (firstDedup_nodup c), firstDedup_toFinset]

theorem zPart_pos {c : List Nat} (hpos : ∀ x ∈ c, 1 ≤ x) : 0 < zPart c := by
  rw [zPart_eq_prod]
  apply Finset.prod_pos
  intro a ha
  have ha2 : 1 ≤ a := hpos a (List.mem_toFinset.mp ha)
  exact Nat.mul_pos (Nat.pos_pow_of_pos _ (by omega)) (Nat.factorial_pos _)

theorem zPart_erase {c : List Nat} {k : Nat} (hk : k ∈ c) :
    zPart c = zPart (c.erase k) * (k * c.count k) := by
  rw [zPart_eq_prod, zPart_eq_prod]
  have hsub : (c.erase k).toFinset ⊆ c.toFinset := by
    intro a ha
    exact List.mem_toFinset.mpr
      (List.mem_of_mem_erase (List.mem_toFinset.mp ha))
  have hone : ∀ a ∈ c.toFinset, a ∉ (c.erase k).toFinset →
      a ^ (c.erase k).count a * Nat.factorial ((c.erase k).count a) = 1 := by
    intro a _ ha2
    have : (c.erase k).count a = 0 := by
      rw [List.count_eq_zero]
      intro hmem
      exact ha2 (List.mem_toFinset.mpr hmem)
    simp [this]
  rw [Finset.prod_subset hsub hone]
  have hkf : k ∈ c.toFinset := List.mem_toFinset.mpr hk
  rw [← Finset.mul_prod_erase _ _ hkf, ← Finset.mul_prod_erase _ _ hkf]
  have hcount : c.count k ≠ 0 := fun h0 => (List.count_eq_zero.mp h0) hk
  have hsame : ∀ a ∈ c.toFinset.erase k,
      a ^ (c.erase k).count a * Nat.factorial ((c.erase k).count a) =
        a ^ c.count a * Nat.factorial (c.count a) := by
    intro a ha
    have hne : a ≠ k := (Finset.mem_erase.mp ha).1
    rw [List.count_erase_of_ne hne]
  rw [Finset.prod_congr rfl hsame]
  have hck : (c.erase k).count k = c.count k - 1 := List.count_erase_self k c
  rw [hck]
  have hpow : k ^ c.count k = k ^ (c.count k - 1) * k := by
    conv_lhs => rw [show c.count k = (c.count k - 1) + 1 by omega]
    rw [pow_succ]
  have hfac : Nat.factorial (c.count k) =
      Nat.factorial (c.count k - 1) * c.count k := by
    conv_lhs => rw [show c.count k = (c.count k - 1) + 1 by omega]
    rw [Nat.factorial_succ]
    rw [show c.count k - 1 + 1 = c.count k by omega]
    ring
  rw [hpow, hfac]
  ring

/-! ## Sorted insertion and erasure of a part -/

theorem insertDesc_sum (x : Nat) : ∀ l : List Nat,
    (insertDesc x l).sum = x + l.sum := by
  intro l
  induction l with
  | nil => simp [insertDesc]
  | cons y t ih =>
    by_cases h : y ≤ x
    · simp [insertDesc, h]
    · simp only [insertDesc, if_neg h, List.sum_cons, ih]
      omega

theorem mem_insertDesc {x a : Nat} : ∀ {l : List Nat},
    a ∈ insertDesc x l ↔ a = x ∨ a ∈ l := by
  intro l
  induction l with
  | nil => simp [insertDesc]
  | cons y t ih =>
    by_cases h : y ≤ x
    · simp [insertDesc, h]
    · simp only [insertDesc, if_neg h, List.mem_cons, ih]
      tauto

theorem insertDesc_nonIncr {x : Nat} : ∀ {l : List Nat},
    nonIncr l = true → nonIncr (insertDesc x l) = true := by
  intro l
  induction l with
  | nil => intro _; rfl
  | cons y t ih =>
    intro h
    by_cases hxy : y ≤ x
    · simp only [insertDesc, if_pos hxy]
      exact nonIncr_cons
        (fun z hz => by
          rcases List.mem_cons.mp hz with rfl | hz2
          · exact hxy
          · exact le_trans (nonIncr_cons_le h z hz2) hxy) h
    · simp only [insertDesc, if_neg hxy]
      refine nonIncr_cons ?_ (ih (nonIncr_tail h))
      intro z hz
      rcases mem_insertDesc.mp hz with rfl | hz2
      · omega
      · exact nonIncr_cons_le h z hz2

theorem insertDesc_eq_cons {x : Nat} {t : List Nat}
    (h : ∀ a ∈ t, a ≤ x) : insertDesc x t = x :: t := by
  cases t with
  | nil => rfl
  | cons y t2 =>
    simp only [insertDesc, if_pos (h y (List.mem_cons_self _ _))]

theorem insertDesc_erase : ∀ {c : List Nat}, nonIncr c = true →
    ∀ {a : Nat}, a ∈ c → insertDesc a (c.erase a) = c := by
  intro c
  induction c with
  | nil => intro _ a ha; cases ha
  | cons b t ih =>
    intro hni a ha
    by_cases hba : b = a
    · subst hba
      rw [List.erase_cons_head]
      exact insertDesc_eq_cons (nonIncr_cons_le hni)
    · have hat : a ∈ t := by
        rcases List.mem_cons.mp ha with rfl | h2
        · exact absurd rfl hba
        · exact h2
      rw [List.erase_cons_tail (by simpa using hba)]
      have hab : a ≤ b := nonIncr_cons_le hni a hat
      have hnb : ¬ b ≤ a := by
        intro hba2
        exact hba (le_antisymm hba2 hab)
      simp only [insertDesc, if_neg hnb]
      rw [ih (nonIncr_tail hni) hat]

theorem erase_insertDesc (x : Nat) : ∀ (l : List Nat),
    (insertDesc x l).erase x = l := by
  intro l
  induction l with
  | nil => simp [insertDesc]
  | cons y t ih =>
    by_cases h : y ≤ x
    · simp only [insertDesc, if_pos h]
      rw [List.erase_cons_head]
    · simp only [insertDesc, if_neg h]
      have hyx : ¬ y = x := by omega
      rw [List.erase_cons_tail (by simpa using hyx), ih]

theorem nonIncr_erase {a : Nat} : ∀ {c : List Nat}, nonIncr c = true →
    nonIncr (c.erase a) = true := by
  intro c
  induction c with
  | nil => intro _; rfl
  | cons b t ih =>
    intro h
    by_cases hba : b = a
    · subst hba
      rw [List.erase_cons_head]
      exact nonIncr_tail h
    · rw [List.erase_cons_tail (by simpa using hba)]
      refine nonIncr_cons ?_ (ih (nonIncr_tail h))
      intro z hz
      exact nonIncr_cons_le h z (List.mem_of_mem_erase hz)

theorem sum_erase_add {c : List Nat} {a : Nat} (h : a ∈ c) :
    (c.erase a).sum + a = c.sum := by
  have hperm := List.perm_cons_erase h
  have := hperm.sum_eq
  simp only [List.sum_cons] at this
  omega

/-! ## The removal identity for 1/z over the rationals -/

theorem inv_z_sum {c : List Nat} (hpos : ∀ x ∈ c, 1 ≤ x) :
    (c.sum : ℚ) / (zPart c : ℚ) =
      ∑ a ∈ c.toFinset, (1 : ℚ) / (zPart (c.erase a) : ℚ) := by
  have hz : (zPart c : ℚ) ≠ 0 :=
    Nat.cast_ne_zero.mpr (zPart_pos hpos).ne'
  have hterm : ∀ a ∈ c.toFinset, (1 : ℚ) / (zPart (c.erase a) : ℚ) =
      ((a : ℚ) * (c.count a : ℚ)) / (zPart c : ℚ) := by
    intro a ha
    have hk : a ∈ c := List.mem_toFinset.mp ha
    have he := zPart_erase hk
    have hz2 : (zPart (c.erase a) : ℚ) ≠ 0 :=
      Nat.cast_ne_zero.mpr
        (zPart_pos (fun x hx => hpos x (List.mem_of_mem_erase hx))).ne'
    have hef : (zPart c : ℚ) =
        (zPart (c.erase a) : ℚ) * ((a : ℚ) * (c.count a : ℚ)) := by
      exact_mod_cast he
    rw [hef]
    have ha1 : (1 : ℚ) ≤ (a : ℚ) := by
      exact_mod_cast hpos a hk
    have hcnt : (c.count a : ℚ) ≠ 0 := by
      have : c.count a ≠ 0 := fun h0 => (List.count_eq_zero.mp h0) hk
      exact_mod_cast this
    field_simp
  rw [Finset.sum_congr rfl hterm, ← Finset.sum_div]
  congr 1
  have hcast := Finset.sum_list_map_count c (fun a => (a : ℚ))
  rw [← Nat.cast_list_sum] at hcast
  rw [hcast]
  apply Finset.sum_congr rfl
  intro a _
  rw [nsmul_eq_mul]
  ring

/-! ## z divides n factorial -/

theorem zPart_dvd_factorial : ∀ (n : Nat) (c : List Nat),
    (∀ x ∈ c, 1 ≤ x) → c.sum = n → zPart c ∣ Nat.factorial n := by
  intro n
  induction n using Nat.strong_induction_on with
  | _ n ih =>
    intro c hpos hsum
    cases hc : c with
    | nil =>
      subst hc
      simp only [List.sum_nil] at hsum
      subst hsum
      have : zPart [] = 1 := rfl
      simp [this]
    | cons b t =>
      subst hc
      have hb1 : 1 ≤ b := hpos b (List.mem_cons_self _ _)
      have hn1 : 1 ≤ n := by
        simp only [List.sum_cons] at hsum
        omega
      have hz : (zPart (b :: t) : ℚ) ≠ 0 :=
        Nat.cast_ne_zero.mpr (zPart_pos hpos).ne'
      have hid := inv_z_sum hpos
      rw [hsum] at hid
      set c := b :: t with hc
      have hterm : ∀ a ∈ c.toFinset,
          ((Nat.factorial (n - 1) / zPart (c.erase a) : ℕ) : ℚ) =
            (Nat.factorial (n - 1) : ℚ) / (zPart (c.erase a) : ℚ) := by
        intro a ha
        have hk : a ∈ c := List.mem_toFinset.mp ha
        have ha1 : 1 ≤ a := hpos a hk
        have han : a ≤ n := by
          have := List.single_le_sum (fun y _ => Nat.zero_le y) a hk
          omega
        have hesum : (c.erase a).sum = n - a := by
          have := sum_erase_add hk
          omega
        have hdvd1 : zPart (c.erase a) ∣ Nat.factorial (n - a) :=
          ih (n - a) (by omega) (c.erase a)
            (fun x hx => hpos x (List.mem_of_mem_erase hx)) hesum
        have hdvd : zPart (c.erase a) ∣ Nat.factorial (n - 1) :=
          dvd_trans hdvd1 (Nat.factorial_dvd_factorial (by omega))
        have hz2 : (zPart (c.erase a) : ℚ) ≠ 0 :=
          Nat.cast_ne_zero.mpr
            (zPart_pos (fun x hx => hpos x (List.mem_of_mem_erase hx))).ne'
        rw [Nat.cast_div hdvd hz2]
      have hM : ((∑ a ∈ c.toFinset,
          (Nat.factorial (n - 1) / zPart (c.erase a)) : ℕ) : ℚ) =
          (Nat.factorial (n - 1) : ℚ) * ((n : ℚ) / (zPart c : ℚ)) := by
        push_cast
        rw [Finset.sum_congr rfl hterm, hid]
        rw [Finset.mul_sum]
        apply Finset.sum_congr rfl
        intro a _
        ring
      have hfin : ((∑ a ∈ c.toFinset,
          (Nat.factorial (n - 1) / zPart (c.erase a)) : ℕ) : ℚ) *
            (zPart c : ℚ) = (Nat.factorial n : ℚ) := by
        rw [hM]
        have hfacn : (Nat.factorial n : ℚ) =
            (n : ℚ) * (Nat.factorial (n - 1) : ℚ) := by
          obtain ⟨m, hm⟩ : ∃ m, n = m + 1 := ⟨n - 1, by omega⟩
          subst hm
          simp only [Nat.add_sub_cancel, Nat.factorial_succ]
          push_cast
          ring
        rw [hfacn]
        field_simp
        ring
      have hnat : (∑ a ∈ c.toFinset,
          (Nat.factorial (n - 1) / zPart (c.erase a))) * zPart c =
            Nat.factorial n := by
        exact_mod_cast hfin
      exact ⟨∑ a ∈ c.toFinset, Nat.factorial (n - 1) / zPart (c.erase a),
        by rw [mul_comm] at hnat; exact hnat.symm⟩

/-! ## The class equation: conjugacy class sizes sum to n factorial -/

theorem sum_inv_z : ∀ n : Nat,
    (∑ lam ∈ (partitions n).toFinset, (1 : ℚ) / (zPart lam : ℚ)) = 1 := by
  intro n
  induction n using Nat.strong_induction_on with
  | _ n ih =>
    by_cases hn : n = 0
    · subst hn
      have hp0 : partitions 0 = [[]] := rfl
      rw [hp0]
      have hz0 : zPart ([] : List Nat) = 1 := rfl
      simp [hz0]
    · have hkey : ∀ lam ∈ (partitions n).toFinset,
          (1 : ℚ) / (zPart lam : ℚ) = ((n : ℚ))⁻¹ *
            ∑ a ∈ lam.toFinset, (1 : ℚ) / (zPart (lam.erase a) : ℚ) := by
        intro lam hmem
        obtain ⟨hsum, hpos, _⟩ := partitions_sound (List.mem_toFinset.mp hmem)
        have hid := inv_z_sum hpos
        rw [hsum] at hid
        rw [← hid]
        have hnq : (n : ℚ) ≠ 0 := by exact_mod_cast hn
        have hzq : (zPart lam : ℚ) ≠ 0 :=
          Nat.cast_ne_zero.mpr (zPart_pos hpos).ne'
        field_simp
      rw [Finset.sum_congr rfl hkey, ← Finset.mul_sum]
      rw [Finset.sum_sigma' ((partitions n).toFinset)
        (fun lam => lam.toFinset)
        (fun lam a => (1 : ℚ) / (zPart (lam.erase a) : ℚ))]
      have hbij : (∑ x ∈ ((partitions n).toFinset.sigma fun lam => lam.toFinset),
          (1 : ℚ) / (zPart (x.1.erase x.2) : ℚ)) =
          ∑ y ∈ ((Finset.Icc 1 n).sigma fun k => (partitions (n - k)).toFinset),
            (1 : ℚ) / (zPart y.2 : ℚ) := by
        apply Finset.sum_nbij'
          (fun x => (⟨x.2, x.1.erase x.2⟩ : (_ : Nat) × List Nat))
          (fun y => (⟨insertDesc y.1 y.2, y.1⟩ : (_ : List Nat) × Nat))
        · rintro ⟨lam, a⟩ hx
          simp only [Finset.mem_sigma, List.mem_toFinset] at hx
          obtain ⟨hlam, ha⟩ := hx
          obtain ⟨hsum, hpos, hni⟩ := partitions_sound hlam
          simp only [Finset.mem_sigma, Finset.mem_Icc, List.mem_toFinset]
          have ha1 : 1 ≤ a := hpos a ha
          have han : a ≤ n := by
            have := List.single_le_sum (fun y _ => Nat.zero_le y) a ha
            omega
          refine ⟨⟨ha1, han⟩, ?_⟩
          rw [partitions_mem_iff]
          refine ⟨?_, fun x hx => hpos x (List.mem_of_mem_erase hx),
            nonIncr_erase hni⟩
          have := sum_erase_add ha
          omega
        · rintro ⟨k, mu⟩ hy
          simp only [Finset.mem_sigma, Finset.mem_Icc, List.mem_toFinset] at hy
          obtain ⟨⟨hk1, hkn⟩, hmu⟩ := hy
          obtain ⟨hsum, hpos, hni⟩ := partitions_sound hmu
          simp only [Finset.mem_sigma, List.mem_toFinset]
          constructor
          · rw [partitions_mem_iff]
            refine ⟨?_, ?_, insertDesc_nonIncr hni⟩
            · rw [insertDesc_sum, hsum]
              omega
            · intro x hx
              rcases mem_insertDesc.mp hx with rfl | hx2
              · exact hk1
              · exact hpos x hx2
          · exact mem_insertDesc.mpr (Or.inl rfl)
        · rintro ⟨lam, a⟩ hx
          simp only [Finset.mem_sigma, List.mem_toFinset] at hx
          obtain ⟨hlam, ha⟩ := hx
          obtain ⟨-, -, hni⟩ := partitions_sound hlam
          dsimp only
          rw [insertDesc_erase hni ha]
        · rintro ⟨k, mu⟩ _
          dsimp only
          rw [erase_insertDesc k mu]
        · rintro ⟨lam, a⟩ _
          rfl
      rw [hbij]
      rw [← Finset.sum_sigma' (Finset.Icc 1 n)
        (fun k => (partitions (n - k)).toFinset)
        (fun _ mu => (1 : ℚ) / (zPart mu : ℚ))]
      have hin : ∀ k ∈ Finset.Icc 1 n,
          (∑ mu ∈ (partitions (n - k)).toFinset,
            (1 : ℚ) / (zPart mu : ℚ)) = 1 := by
        intro k hk
        obtain ⟨hk1, -⟩ := Finset.mem_Icc.mp hk
        exact ih (n - k) (by omega)
      rw [Finset.sum_congr rfl hin]
      simp only [Finset.sum_const, Nat.card_Icc, smul_eq_mul, mul_one]
      have hnq : (n : ℚ) ≠ 0 := by exact_mod_cast hn
      rw [show n + 1 - 1 = n by omega]
      field_simp

theorem class_equation (n : Nat) :
    ((partitions n).map (fun rho => conjugacy_class_size rho n)).sum =
      Nat.factorial n := by
  have h1 : (∑ rho ∈ (partitions n).toFinset, conjugacy_class_size rho n) =
      ((partitions n).map (fun rho => conjugacy_class_size rho n)).sum :=
    List.sum_toFinset _ (partitions_nodup n)
  rw [← h1]
  have hq : ((∑ rho ∈ (partitions n).toFinset,
      conjugacy_class_size rho n : ℕ) : ℚ) = (Nat.factorial n : ℚ) := by
    push_cast
    have hterm : ∀ rho ∈ (partitions n).toFinset,
        ((conjugacy_class_size rho n : ℕ) : ℚ) =
          (Nat.factorial n : ℚ) * ((1 : ℚ) / (zPart rho : ℚ)) := by
      intro rho hmem
      obtain ⟨hsum, hpos, -⟩ := partitions_sound (List.mem_toFinset.mp hmem)
      unfold conjugacy_class_size
      rw [Nat.cast_div (zPart_dvd_factorial n rho hpos hsum)
        (Nat.cast_ne_zero.mpr (zPart_pos hpos).ne')]
      ring
    rw [Finset.sum_congr rfl hterm, ← Finset.mul_sum, sum_inv_z n, mul_one]
  exact_mod_cast hq

/-! ## The single-row character is identically 1 -/

theorem insertDesc_perm (x : Nat) : ∀ l : List Nat,
    (insertDesc x l).Perm (x :: l) := by
  intro l
  induction l with
  | nil => exact List.Perm.refl _
  | cons y t ih =>
    by_cases h : y ≤ x
    · simp only [insertDesc, if_pos h]
      exact List.Perm.refl _
    · simp only [insertDesc, if_neg h]
      exact ((ih.cons y).trans (List.Perm.swap x y t))

theorem sortDesc_perm : ∀ l : List Nat, (sortDesc l).Perm l := by
  intro l
  induction l with
  | nil => exact List.Perm.refl _
  | cons a t ih =>
    simp only [sortDesc, List.foldr_cons]
    exact (insertDesc_perm a (sortDesc t)).trans (ih.cons a)

theorem borderLoop_single {s k : Nat} (h1 : 1 ≤ k) (h2 : k ≤ s) :
    borderLoop k 0 0 [s] 0 1 = ([s - k], k, 1) := by
  rw [borderLoop]
  rw [if_neg (by omega : ¬ k ≤ 0)]
  have ha : availCells 0 0 [s] = s := by simp [availCells]
  rw [ha]
  rw [if_neg (by omega : ¬ s = 0)]
  rw [if_neg (by simp : ¬ (0 < 0 ∧ (connDiff 0 [s] < 0 ∨ 1 < connDiff 0 [s])))]
  have hmin : min s (k - 0) = k := by
    rw [Nat.sub_zero]
    exact min_eq_right h2
  rw [hmin]
  rw [if_neg (by omega : ¬ 0 + k < k)]
  simp

theorem list_to_partition_single (x : Nat) :
    list_to_partition [x] = if x = 0 then [] else [x] := by
  by_cases hx : x = 0
  · subst hx
    rfl
  · rw [if_neg hx]
    have hb : (x == 0) = false := beq_eq_false_iff_ne.mpr hx
    simp [list_to_partition, List.dropWhile, hb]

theorem strip_candidate_single {s k : Nat} (h1 : 1 ≤ k) (h2 : k ≤ s) :
    strip_candidate [s] k 0 =
      some (if s - k = 0 then [] else [s - k], 1) := by
  simp only [strip_candidate, borderLoop_single h1 h2, if_true]
  rw [list_to_partition_single (s - k)]
  by_cases hsk : s - k = 0
  · rw [if_pos hsk]
    rfl
  · rw [if_neg hsk]
    have h0 : 0 < s - k := Nat.pos_of_ne_zero hsk
    rw [if_pos (show is_valid_partition [s - k] = true by
      simp [is_valid_partition, nonIncr, h0])]

theorem remove_border_strip_single {s k : Nat} (h1 : 1 ≤ k) (h2 : k ≤ s) :
    remove_border_strip [s] k =
      [(if s - k = 0 then ([] : List Nat) else [s - k], 1)] := by
  unfold remove_border_strip
  rw [if_neg (by
    simp only [List.isEmpty_cons, Bool.false_or, beq_iff_eq]
    omega)]
  have hr : List.range ([s] : List Nat).length = [0] := by
    simp [List.range_succ]
  rw [hr]
  rw [List.filterMap_cons, strip_candidate_single h1 h2]
  simp only [List.filterMap_nil]
  rfl

theorem charFuel_single_row : ∀ (fuel : Nat) (c : List Nat),
    c.length = fuel → (∀ x ∈ c, 1 ≤ x) →
    charFuel fuel (if c.sum = 0 then [] else [c.sum]) c = 1 := by
  intro fuel
  induction fuel with
  | zero =>
    intro c hlen hpos
    have hc : c = [] := List.eq_nil_of_length_eq_zero hlen
    subst hc
    rfl
  | succ f ih =>
    intro c hlen hpos
    cases c with
    | nil => simp at hlen
    | cons a t =>
      have ha1 : 1 ≤ a := hpos a (List.mem_cons_self _ _)
      have hsumpos : 0 < (a :: t).sum := by
        simp only [List.sum_cons]
        omega
      rw [if_neg (by omega)]
      have hperm := sortDesc_perm (a :: t)
      have hctsum : (sortDesc (a :: t)).sum = (a :: t).sum := hperm.sum_eq
      have hctlen : (sortDesc (a :: t)).length = f + 1 := by
        rw [hperm.length_eq, hlen]
      obtain ⟨k, rem, hkr⟩ : ∃ k rem, sortDesc (a :: t) = k :: rem := by
        cases hsd : sortDesc (a :: t) with
        | nil => rw [hsd] at hctlen; simp at hctlen
        | cons k rem => exact ⟨k, rem, rfl⟩
      have hkmem : k ∈ (a :: t) := hperm.mem_iff.mp (by rw [hkr]; exact List.mem_cons_self _ _)
      have hk1 : 1 ≤ k := hpos k hkmem
      have hks : k ≤ (a :: t).sum :=
        List.single_le_sum (fun y _ => Nat.zero_le y) k hkmem
      have hremsum : rem.sum = (a :: t).sum - k := by
        have hx : (a :: t).sum = k + rem.sum := by
          rw [← hctsum, hkr, List.sum_cons]
        omega
      have hrempos : ∀ x ∈ rem, 1 ≤ x := by
        intro x hx
        exact hpos x (hperm.mem_iff.mp (by rw [hkr]; exact List.mem_cons_of_mem _ hx))
      have hremlen : rem.length = f := by
        rw [hkr] at hctlen
        simp only [List.length_cons] at hctlen
        omega
      unfold charFuel
      rw [hkr]
      simp only [List.isEmpty_cons, Bool.and_false, Bool.false_and,
        Bool.or_false, Bool.false_or]
      rw [if_neg (by simp)]
      rw [if_neg (by simp)]
      have hsums : ([(a :: t).sum] : List Nat).sum = (k :: rem).sum := by
        rw [← hkr, hctsum]
        simp
      rw [if_neg (not_not_intro hsums)]
      simp only [List.headD_cons, List.tail_cons]
      rw [remove_border_strip_single hk1 (by
        simp only [List.sum_cons, List.sum_nil] at hks ⊢
        omega)]
      have hrec := ih rem hremlen hrempos
      rw [hremsum] at hrec
      simp only [List.isEmpty_cons, List.map_cons, List.map_nil,
        List.sum_cons, List.sum_nil, add_zero, Nat.sub_self, pow_zero,
        one_mul]
      rw [if_neg (by simp)]
      simp only [List.sum_cons, List.sum_nil, add_zero] at hrec ⊢
      exact hrec

theorem character_single_row {n : Nat} {rho : List Nat}
    (hmem : rho ∈ partitions n) (hn : 1 ≤ n) :
    character_mn [n] rho = 1 := by
  obtain ⟨hsum, hpos, -⟩ := partitions_sound hmem
  have h := charFuel_single_row rho.length rho rfl hpos
  rw [hsum, if_neg (by omega)] at h
  exact h

/-! ## Claim C6: trivial-representation law -/

/-- C6: for every n at least 1 the Kronecker computation on three copies of
the single-row partition (n) returns exactly 1: every character value on the
single-row partition is 1, the conjugacy class sizes sum to n factorial (the
class equation), and the final floor division is n! // n! = 1. -/
theorem C6_trivial_representation_law :
    ∀ n : Nat, 1 ≤ n → kronecker_coefficient_exact [n] [n] [n] = 1 := by
  intro n hn
  have hsum : ([n] : List Nat).sum = n := List.sum_singleton
  unfold kronecker_coefficient_exact
  rw [if_neg (by simp)]
  have htot : kroneckerTotal [n] [n] [n] = (Nat.factorial n : Int) := by
    unfold kroneckerTotal
    rw [hsum]
    have hmap : (partitions n).map (fun rho =>
        (conjugacy_class_size rho n : Int) * character_mn [n] rho *
          character_mn [n] rho * character_mn [n] rho) =
        (partitions n).map (fun rho =>
          (conjugacy_class_size rho n : Int)) := by
      apply List.map_congr_left
      intro rho hmem
      rw [character_single_row hmem hn]
      ring
    rw [hmap]
    have hcast : ((((partitions n).map
        (fun rho => conjugacy_class_size rho n)).sum : ℕ) : Int) =
        ((partitions n).map
          (fun rho => (conjugacy_class_size rho n : Int))).sum := by
      rw [Nat.cast_list_sum (β := Int), List.map_map]
      rfl
    rw [← hcast, class_equation n]
  rw [htot, hsum]
  exact Int.fdiv_self (by
    have := Nat.factorial_pos n
    exact_mod_cast this.ne')

/-- C6 witness: the law instantiated at n = 4. -/
theorem C6_trivial_representation_law_witness :
    1 ≤ 4 ∧ kronecker_coefficient_exact [4] [4] [4] = 1 :=
  ⟨by decide, C6_trivial_representation_law 4 (by decide)⟩
